import Mathlib

/-!
Verification of the chunked parallel encoder in
`sciopt-compressors/IABS.compressor.cpp` (LC framework instance
`QUANT_IABS_0_f32 :: float -> double`).

Bytes are modelled as natural numbers; buffers as `List Nat`.  The
compression stage `h_BIT_4` and the preprocessing stage
`h_QUANT_IABS_0_f32` are provided by headers that are not part of this
repository, so they are modelled abstractly by the stage contract of the
specification (section 4.1): a stage either succeeds and produces an
output buffer (whose length is the reported size) or fails.

The parallel chunk loop of `h_encode` is deterministic up to the carry
chain, which forces chunk `i+1`'s payload offset to be chunk `i`'s offset
plus chunk `i`'s stored size; the embedding below is the functional
result of that loop (per-chunk stored bytes, the carry recurrence, and
the assembled output stream).
-/

set_option autoImplicit false

namespace IABS

/-- `static const int CS = 1024 * 16` — chunk size in bytes. -/
def CS : Nat := 1024 * 16

/-- Stage contract (spec section 4.1, modelling `h_BIT_4`): consume a byte
buffer and either succeed with a transformed buffer (`some out`, reported
size = `out.length`) or report failure (`none`). -/
abbrev Stage := List Nat → Option (List Nat)

/-- `const long long chunks = (insize + CS - 1) / CS;` — round up. -/
def numChunks (insize : Nat) : Nat := (insize + CS - 1) / CS

/-- `const int osize = (int)std::min((long long)CS, insize - base)` with
`base = chunkID * CS`. -/
def chunkOsize (insize chunkID : Nat) : Nat := min CS (insize - chunkID * CS)

/-- The raw bytes of a chunk: `memcpy(out, &input[base], osize)` reads
`osize` bytes of the input starting at `base = chunkID * CS`. -/
def chunkRaw (input : List Nat) (chunkID : Nat) : List Nat :=
  (input.drop (chunkID * CS)).take (chunkOsize input.length chunkID)

/-- The bytes stored for a chunk: the stage output when the stage succeeds
and its size is strictly smaller than `osize` (`good && (csize < osize)`),
otherwise the original raw bytes taken from `&input[base]`. -/
def storedChunk (stage : Stage) (input : List Nat) (chunkID : Nat) : List Nat :=
  let osize := chunkOsize input.length chunkID
  let raw := chunkRaw input chunkID
  match stage raw with
  | some c => if c.length < osize then c else raw
  | none => raw

/-- The size recorded in the size table for a chunk
(`size_out[chunkID] = csize` on the compressed path, `= osize` on the
raw path). -/
def storedSize (stage : Stage) (input : List Nat) (chunkID : Nat) : Nat :=
  (storedChunk stage input chunkID).length

/-- The carry chain: chunk 0 publishes `0 + storedSize 0`; chunk `i+1`
reads `carry i` as its base offset `offs` and publishes
`offs + storedSize (i+1)`. -/
def carry (stage : Stage) (input : List Nat) : Nat → Nat
  | 0 => storedSize stage input 0
  | i + 1 => carry stage input i + storedSize stage input (i + 1)

/-- The payload base offset of a chunk: `0` for chunk 0, the predecessor's
published carry value otherwise. -/
def chunkOffs (stage : Stage) (input : List Nat) : Nat → Nat
  | 0 => 0
  | i + 1 => carry stage input i

/-- Little-endian byte encoding of width `k`: models the raw stores of
`long long` (k = 8) and `unsigned short` (k = 2) fields into the output
byte buffer. -/
def leBytes : Nat → Nat → List Nat
  | 0, _ => []
  | k + 1, n => n % 256 :: leBytes k (n / 256)

/-- Little-endian byte decoding, the reciprocal field read. -/
def leVal : List Nat → Nat
  | [] => 0
  | b :: bs => b + 256 * leVal bs

/-- The size table, in chunk order. -/
def sizeTable (stage : Stage) (input : List Nat) : List Nat :=
  (List.range (numChunks input.length)).map (storedSize stage input)

/-- The payload region: each chunk's stored bytes placed at its carry
offset; since offsets are the partial sums of the stored sizes this is the
concatenation in chunk order. -/
def payload (stage : Stage) (input : List Nat) : List Nat :=
  ((List.range (numChunks input.length)).map (storedChunk stage input)).flatten

/-- `h_encode`: output stream (`head_out` holding `insize`, then
`size_out`, then `data_out`) and
`outsize = &data_out[carry[chunks - 1]] - output`. -/
def h_encode (stage : Stage) (input : List Nat) : List Nat × Nat :=
  let insize := input.length
  let chunks := numChunks insize
  let stream := leBytes 8 insize
    ++ ((sizeTable stage input).map (leBytes 2)).flatten
    ++ payload stage input
  (stream, 8 + 2 * chunks + carry stage input (chunks - 1))

/-- A stage that always reports failure; used to instantiate theorems at
concrete inputs. -/
def stageFail : Stage := fun _ => none

section ChunkArith

theorem CS_pos : 0 < CS := by decide

/-- For positive `insize`, `chunks = (insize - 1) / CS + 1`. -/
theorem numChunks_eq (insize : Nat) (h : 0 < insize) :
    numChunks insize = (insize - 1) / CS + 1 := by
  unfold numChunks
  have h1 : insize + CS - 1 = (insize - 1) + 1 * CS := by omega
  rw [h1, Nat.add_mul_div_right _ _ CS_pos]

theorem numChunks_pos (insize : Nat) (h : 0 < insize) : 0 < numChunks insize := by
  rw [numChunks_eq insize h]; exact Nat.succ_pos _

/-- `insize ≤ chunks * CS`: the chunks cover the input. -/
theorem le_numChunks_mul (insize : Nat) : insize ≤ numChunks insize * CS := by
  rcases Nat.eq_zero_or_pos insize with h | h
  · simp [h]
  · rw [numChunks_eq insize h, Nat.succ_mul]
    have := Nat.lt_div_mul_add (a := insize - 1) CS_pos
    omega

/-- `(chunks - 1) * CS < insize` for positive `insize`: the last chunk is
nonempty. -/
theorem pred_numChunks_mul_lt (insize : Nat) (h : 0 < insize) :
    (numChunks insize - 1) * CS < insize := by
  rw [numChunks_eq insize h, Nat.add_sub_cancel]
  have := Nat.div_mul_le_self (insize - 1) CS
  omega

theorem chunkOsize_pos (insize chunkID : Nat) (h : 0 < insize)
    (hc : chunkID < numChunks insize) : 0 < chunkOsize insize chunkID := by
  have h1 : chunkID * CS ≤ (numChunks insize - 1) * CS :=
    Nat.mul_le_mul_right CS (by omega)
  have h2 := pred_numChunks_mul_lt insize h
  have : 0 < insize - chunkID * CS := by omega
  have := CS_pos
  unfold chunkOsize
  omega

theorem chunkOsize_le_CS (insize chunkID : Nat) :
    chunkOsize insize chunkID ≤ CS := Nat.min_le_left _ _

/-- The raw chunk really has `osize` bytes. -/
theorem chunkRaw_length (input : List Nat) (chunkID : Nat) :
    (chunkRaw input chunkID).length = chunkOsize input.length chunkID := by
  unfold chunkRaw chunkOsize
  simp [List.length_take, List.length_drop]

end ChunkArith

section StoredChunk

/-- Case analysis on the fallback decision `good && (csize < osize)`. -/
theorem storedChunk_eq_of_compressed (stage : Stage) (input : List Nat)
    (chunkID : Nat) (c : List Nat) (hs : stage (chunkRaw input chunkID) = some c)
    (hlt : c.length < chunkOsize input.length chunkID) :
    storedChunk stage input chunkID = c := by
  simp [storedChunk, hs, hlt]

theorem storedChunk_eq_raw_of_not_smaller (stage : Stage) (input : List Nat)
    (chunkID : Nat) (c : List Nat) (hs : stage (chunkRaw input chunkID) = some c)
    (hge : chunkOsize input.length chunkID ≤ c.length) :
    storedChunk stage input chunkID = chunkRaw input chunkID := by
  simp [storedChunk, hs, Nat.not_lt.mpr hge]

theorem storedChunk_eq_raw_of_fail (stage : Stage) (input : List Nat)
    (chunkID : Nat) (hs : stage (chunkRaw input chunkID) = none) :
    storedChunk stage input chunkID = chunkRaw input chunkID := by
  simp [storedChunk, hs]

theorem storedSize_le_osize (stage : Stage) (input : List Nat) (chunkID : Nat) :
    storedSize stage input chunkID ≤ chunkOsize input.length chunkID := by
  unfold storedSize
  rcases hs : stage (chunkRaw input chunkID) with _ | c
  · rw [storedChunk_eq_raw_of_fail stage input chunkID hs, chunkRaw_length]
  · rcases Nat.lt_or_ge c.length (chunkOsize input.length chunkID) with hlt | hge
    · rw [storedChunk_eq_of_compressed stage input chunkID c hs hlt]
      exact Nat.le_of_lt hlt
    · rw [storedChunk_eq_raw_of_not_smaller stage input chunkID c hs hge,
        chunkRaw_length]

end StoredChunk

/-- C2: for every input with `insize > 0` and every `chunkID` below the
chunk count, the size recorded in the size table for that chunk is at most
the chunk's original size `min(CS, insize - chunkID*CS)`: the stream never
expands at the chunk level. -/
theorem chunk_non_expansion (stage : Stage) (input : List Nat) (chunkID : Nat)
    (h : 0 < input.length) (hc : chunkID < numChunks input.length) :
    storedSize stage input chunkID ≤ min CS (input.length - chunkID * CS) :=
  storedSize_le_osize stage input chunkID

theorem chunk_non_expansion_witness :
    0 < ([5, 6, 7] : List Nat).length ∧
      0 < numChunks ([5, 6, 7] : List Nat).length ∧
      storedSize stageFail [5, 6, 7] 0 ≤ min CS (([5, 6, 7] : List Nat).length - 0 * CS) :=
  ⟨by decide, by decide,
    chunk_non_expansion stageFail [5, 6, 7] 0 (by decide) (by decide)⟩

/-- C4: the encoder keeps the compressed bytes and size exactly when the
stage succeeds with a size strictly smaller than the chunk's original
size; on failure, or when the size is equal or larger, it stores the raw
bytes with the original size — failure and not-smaller results produce
identical chunk records. -/
theorem fallback_policy (stage : Stage) (input : List Nat) (chunkID : Nat) :
    (∀ c, stage (chunkRaw input chunkID) = some c →
      c.length < chunkOsize input.length chunkID →
      storedChunk stage input chunkID = c ∧
        storedSize stage input chunkID = c.length) ∧
    (∀ c, stage (chunkRaw input chunkID) = some c →
      chunkOsize input.length chunkID ≤ c.length →
      storedChunk stage input chunkID = chunkRaw input chunkID ∧
        storedSize stage input chunkID = chunkOsize input.length chunkID) ∧
    (stage (chunkRaw input chunkID) = none →
      storedChunk stage input chunkID = chunkRaw input chunkID ∧
        storedSize stage input chunkID = chunkOsize input.length chunkID) := by
  refine ⟨fun c hs hlt => ?_, fun c hs hge => ?_, fun hs => ?_⟩
  · have he := storedChunk_eq_of_compressed stage input chunkID c hs hlt
    exact ⟨he, by rw [storedSize, he]⟩
  · have he := storedChunk_eq_raw_of_not_smaller stage input chunkID c hs hge
    exact ⟨he, by rw [storedSize, he, chunkRaw_length]⟩
  · have he := storedChunk_eq_raw_of_fail stage input chunkID hs
    exact ⟨he, by rw [storedSize, he, chunkRaw_length]⟩

theorem fallback_policy_witness :
    stageFail (chunkRaw [5, 6, 7] 0) = none ∧
      storedChunk stageFail [5, 6, 7] 0 = chunkRaw [5, 6, 7] 0 ∧
      storedSize stageFail [5, 6, 7] 0 = chunkOsize ([5, 6, 7] : List Nat).length 0 :=
  ⟨rfl, (fallback_policy stageFail [5, 6, 7] 0).2.2 rfl⟩

/-- C5: for positive `insize` the encoder plans `ceil(insize / CS)` chunks
(characterized by the Galois connection `insize ≤ k*CS ↔ chunks ≤ k`),
chunk `chunkID` covers the byte range
`[chunkID*CS, min((chunkID+1)*CS, insize))`, and the last chunk's original
size is `insize - (chunks-1)*CS`. -/
theorem chunk_planning (input : List Nat) (h : 0 < input.length) :
    (∀ k, input.length ≤ k * CS ↔ numChunks input.length ≤ k) ∧
    (∀ chunkID, chunkID < numChunks input.length →
      chunkRaw input chunkID =
        (input.drop (chunkID * CS)).take
          (min ((chunkID + 1) * CS) input.length - chunkID * CS)) ∧
    chunkOsize input.length (numChunks input.length - 1) =
      input.length - (numChunks input.length - 1) * CS := by
  refine ⟨fun k => ⟨fun hk => ?_, fun hk => ?_⟩, fun chunkID hc => ?_, ?_⟩
  · rw [numChunks_eq input.length h, Nat.add_one_le_iff,
      Nat.div_lt_iff_lt_mul CS_pos]
    omega
  · exact Nat.le_trans (le_numChunks_mul input.length)
      (Nat.mul_le_mul_right CS hk)
  · unfold chunkRaw chunkOsize
    have h1 : chunkID * CS ≤ (numChunks input.length - 1) * CS :=
      Nat.mul_le_mul_right CS (by omega)
    have h2 := pred_numChunks_mul_lt input.length h
    have h3 : min ((chunkID + 1) * CS) input.length - chunkID * CS =
        min CS (input.length - chunkID * CS) := by
      rw [Nat.succ_mul]
      omega
    rw [h3]
  · have h1 := pred_numChunks_mul_lt input.length h
    have h2 := le_numChunks_mul input.length
    have h3 : numChunks input.length * CS =
        (numChunks input.length - 1) * CS + CS := by
      have h4 := numChunks_pos input.length h
      rw [← Nat.succ_mul]
      congr 1
      omega
    unfold chunkOsize
    omega

theorem chunk_planning_witness :
    0 < ([0, 1, 2] : List Nat).length ∧
      (([0, 1, 2] : List Nat).length ≤ 1 * CS ↔
        numChunks ([0, 1, 2] : List Nat).length ≤ 1) :=
  ⟨by decide, (chunk_planning [0, 1, 2] (by decide)).1 1⟩

section CarryChain

theorem carry_eq_sum (stage : Stage) (input : List Nat) (i : Nat) :
    carry stage input i =
      ((List.range (i + 1)).map (storedSize stage input)).sum := by
  induction i with
  | zero => simp [carry, List.sum_range_succ]
  | succ n ih =>
    rw [carry, ih, List.sum_range_succ (storedSize stage input) (n + 1)]

theorem chunkOffs_eq_sum (stage : Stage) (input : List Nat) (i : Nat) :
    chunkOffs stage input i =
      ((List.range i).map (storedSize stage input)).sum := by
  cases i with
  | zero => simp [chunkOffs]
  | succ n => rw [chunkOffs, carry_eq_sum]

theorem chunkOffs_succ (stage : Stage) (input : List Nat) (i : Nat) :
    chunkOffs stage input (i + 1) =
      chunkOffs stage input i + storedSize stage input i := by
  cases i with
  | zero => simp [chunkOffs, carry]
  | succ n => rfl

theorem carry_eq_chunkOffs_add (stage : Stage) (input : List Nat) (i : Nat) :
    carry stage input i = chunkOffs stage input i + storedSize stage input i :=
  chunkOffs_succ stage input i

theorem flatten_drop_eq {α : Type} (L : List (List α)) :
    ∀ i, L.flatten.drop (((L.take i).map List.length).sum) = (L.drop i).flatten := by
  induction L with
  | nil => intro i; simp
  | cons x L ih =>
    intro i
    cases i with
    | zero => simp
    | succ n =>
      simp only [List.take_succ_cons, List.map_cons, List.sum_cons,
        List.flatten_cons, List.drop_succ_cons]
      rw [List.drop_append, ih n]

theorem payload_drop_offs (stage : Stage) (input : List Nat) (i : Nat)
    (hi : i ≤ numChunks input.length) :
    (payload stage input).drop (chunkOffs stage input i) =
      (((List.range (numChunks input.length)).drop i).map
        (storedChunk stage input)).flatten := by
  unfold payload
  have h1 : ((List.range (numChunks input.length)).map
      (storedChunk stage input)).take i =
      (List.range i).map (storedChunk stage input) := by
    rw [← List.map_take, List.take_range, Nat.min_eq_left hi]
  have h2 : chunkOffs stage input i =
      ((((List.range (numChunks input.length)).map
        (storedChunk stage input)).take i).map List.length).sum := by
    rw [h1, List.map_map, chunkOffs_eq_sum]
    rfl
  rw [h2, flatten_drop_eq, List.map_drop]

theorem payload_segment (stage : Stage) (input : List Nat) (i : Nat)
    (hi : i < numChunks input.length) :
    ((payload stage input).drop (chunkOffs stage input i)).take
        (storedSize stage input i) =
      storedChunk stage input i := by
  rw [payload_drop_offs stage input i (Nat.le_of_lt hi)]
  have hlen : i < (List.range (numChunks input.length)).length := by
    simpa using hi
  rw [List.drop_eq_getElem_cons hlen, List.getElem_range]
  simp only [List.map_cons, List.flatten_cons]
  rw [storedSize]
  exact List.take_left _ _

theorem payload_length (stage : Stage) (input : List Nat)
    (h : 0 < input.length) :
    (payload stage input).length =
      carry stage input (numChunks input.length - 1) := by
  unfold payload
  rw [List.length_flatten, List.map_map, carry_eq_sum]
  have hpos := numChunks_pos input.length h
  have he : numChunks input.length - 1 + 1 = numChunks input.length := by omega
  rw [he]
  rfl

theorem storedSize_pos (stage : Stage) (input : List Nat) (i : Nat)
    (hpos : ∀ b c, stage b = some c → c ≠ [])
    (h : 0 < input.length) (hi : i < numChunks input.length) :
    0 < storedSize stage input i := by
  unfold storedSize
  rcases hs : stage (chunkRaw input i) with _ | c
  · rw [storedChunk_eq_raw_of_fail _ _ _ hs, chunkRaw_length]
    exact chunkOsize_pos _ _ h hi
  · rcases Nat.lt_or_ge c.length (chunkOsize input.length i) with hlt | hge
    · rw [storedChunk_eq_of_compressed _ _ _ _ hs hlt]
      exact List.length_pos.mpr (hpos _ _ hs)
    · rw [storedChunk_eq_raw_of_not_smaller _ _ _ _ hs hge, chunkRaw_length]
      exact chunkOsize_pos _ _ h hi

theorem carry_pos (stage : Stage) (input : List Nat) (i : Nat)
    (hpos : ∀ b c, stage b = some c → c ≠ [])
    (h : 0 < input.length) (hi : i < numChunks input.length) :
    0 < carry stage input i := by
  cases i with
  | zero =>
    exact storedSize_pos stage input 0 hpos h hi
  | succ n =>
    rw [carry]
    have hn : n < numChunks input.length := Nat.lt_of_succ_lt hi
    have := carry_pos stage input n hpos h hn
    omega

end CarryChain

/-- C3: chunk 0 starts at payload offset 0, the base offset of chunk `i+1`
is the base offset of chunk `i` plus `storedSize i` (the published carry
value), `carry i` is the sum of the stored sizes of chunks `0..i`, offsets
are strictly increasing, each chunk's stored bytes sit exactly at its base
offset, and the payload ends exactly at the last carry value (no gaps, no
overlaps). -/
theorem carry_contiguity (stage : Stage) (input : List Nat)
    (hpos : ∀ b c, stage b = some c → c ≠ []) (h : 0 < input.length) :
    chunkOffs stage input 0 = 0 ∧
    (∀ i, chunkOffs stage input (i + 1) =
      chunkOffs stage input i + storedSize stage input i) ∧
    (∀ i, carry stage input i =
      ((List.range (i + 1)).map (storedSize stage input)).sum) ∧
    (∀ i, i < numChunks input.length →
      chunkOffs stage input i < chunkOffs stage input (i + 1)) ∧
    (∀ i, i < numChunks input.length →
      ((payload stage input).drop (chunkOffs stage input i)).take
        (storedSize stage input i) = storedChunk stage input i) ∧
    (payload stage input).length =
      carry stage input (numChunks input.length - 1) := by
  refine ⟨rfl, chunkOffs_succ stage input, carry_eq_sum stage input,
    fun i hi => ?_, payload_segment stage input,
    payload_length stage input h⟩
  rw [chunkOffs_succ]
  have := storedSize_pos stage input i hpos h hi
  omega

theorem carry_contiguity_witness :
    chunkOffs stageFail [1, 2, 3] 0 = 0 ∧
      chunkOffs stageFail [1, 2, 3] 1 =
        chunkOffs stageFail [1, 2, 3] 0 + storedSize stageFail [1, 2, 3] 0 ∧
      (payload stageFail [1, 2, 3]).length =
        carry stageFail [1, 2, 3] (numChunks ([1, 2, 3] : List Nat).length - 1) := by
  have hc := carry_contiguity stageFail [1, 2, 3]
    (fun b c hbc => by cases hbc) (by decide)
  exact ⟨hc.1, hc.2.1 0, hc.2.2.2.2.2⟩

/-- C7: with the stage contract that a successful result is never empty
(spec section 3: every chunk's stored size is strictly positive), every
published carry value is strictly positive, so the sentinel `0`
unambiguously means "not yet published". -/
theorem carry_sentinel_positive (stage : Stage) (input : List Nat)
    (hpos : ∀ b c, stage b = some c → c ≠ []) (h : 0 < input.length) :
    ∀ i, i < numChunks input.length →
      0 < storedSize stage input i ∧ 0 < carry stage input i :=
  fun i hi => ⟨storedSize_pos stage input i hpos h hi,
    carry_pos stage input i hpos h hi⟩

theorem carry_sentinel_positive_witness :
    0 < storedSize stageFail [9] 0 ∧ 0 < carry stageFail [9] 0 :=
  carry_sentinel_positive stageFail [9]
    (fun b c hbc => by cases hbc) (by decide) 0 (by decide)

/-- C9: whenever the fallback path is taken (stage failure, or a result
that is not strictly smaller), the bytes placed in the payload for that
chunk are exactly the original input bytes of the chunk's range. -/
theorem raw_chunk_bytes_from_input (stage : Stage) (input : List Nat)
    (i : Nat) (hi : i < numChunks input.length)
    (hfb : stage (chunkRaw input i) = none ∨
      ∃ c, stage (chunkRaw input i) = some c ∧
        chunkOsize input.length i ≤ c.length) :
    ((payload stage input).drop (chunkOffs stage input i)).take
        (storedSize stage input i) =
      (input.drop (i * CS)).take (chunkOsize input.length i) := by
  rw [payload_segment stage input i hi]
  rcases hfb with hs | ⟨c, hs, hge⟩
  · rw [storedChunk_eq_raw_of_fail stage input i hs]; rfl
  · rw [storedChunk_eq_raw_of_not_smaller stage input i c hs hge]; rfl

section StreamBytes

theorem leBytes_length (k n : Nat) : (leBytes k n).length = k := by
  induction k generalizing n with
  | zero => rfl
  | succ m ih => rw [leBytes, List.length_cons, ih]

theorem leVal_leBytes (k n : Nat) : leVal (leBytes k n) = n % 256 ^ k := by
  induction k generalizing n with
  | zero => simp [leBytes, leVal, Nat.mod_one]
  | succ m ih =>
    rw [leBytes, leVal, ih, pow_succ, mul_comm ((256 : Nat) ^ m) 256,
      Nat.mod_mul]

theorem tableBytes_length (sizes : List Nat) :
    ((sizes.map (leBytes 2)).flatten).length = 2 * sizes.length := by
  induction sizes with
  | nil => rfl
  | cons s rest ih =>
    rw [List.map_cons, List.flatten_cons, List.length_append, ih,
      leBytes_length, List.length_cons]
    omega

theorem sizeTable_length (stage : Stage) (input : List Nat) :
    (sizeTable stage input).length = numChunks input.length := by
  rw [sizeTable, List.length_map, List.length_range]

theorem carry_last_eq_sum (stage : Stage) (input : List Nat)
    (h : 0 < input.length) :
    carry stage input (numChunks input.length - 1) =
      (sizeTable stage input).sum := by
  rw [carry_eq_sum]
  have hpos := numChunks_pos input.length h
  have he : numChunks input.length - 1 + 1 = numChunks input.length := by omega
  rw [he]
  rfl

end StreamBytes

/-- C6: `outsize` equals `8 + 2*chunks + Σ storedSize`, equals the value
derived from the last published carry, and the output stream is the
8-byte `insize` header followed by the 16-bit size table followed by the
payload; the stream's length is exactly `outsize`. -/
theorem stream_layout_outsize (stage : Stage) (input : List Nat)
    (h : 0 < input.length) (h64 : input.length < 2 ^ 64) :
    (h_encode stage input).2 =
      8 + 2 * numChunks input.length + (sizeTable stage input).sum ∧
    (h_encode stage input).2 =
      8 + 2 * numChunks input.length +
        carry stage input (numChunks input.length - 1) ∧
    (h_encode stage input).1.take 8 = leBytes 8 input.length ∧
    leVal ((h_encode stage input).1.take 8) = input.length ∧
    ((h_encode stage input).1.drop 8).take (2 * numChunks input.length) =
      ((sizeTable stage input).map (leBytes 2)).flatten ∧
    (h_encode stage input).1.drop (8 + 2 * numChunks input.length) =
      payload stage input ∧
    (h_encode stage input).1.length = (h_encode stage input).2 := by
  have hA : (leBytes 8 input.length).length = 8 := leBytes_length 8 input.length
  have hB : (((sizeTable stage input).map (leBytes 2)).flatten).length =
      2 * numChunks input.length := by
    rw [tableBytes_length, sizeTable_length]
  have hstream : (h_encode stage input).1 =
      (leBytes 8 input.length ++
        ((sizeTable stage input).map (leBytes 2)).flatten) ++
        payload stage input := rfl
  have hout : (h_encode stage input).2 =
      8 + 2 * numChunks input.length +
        carry stage input (numChunks input.length - 1) := rfl
  have htake8 : (h_encode stage input).1.take 8 = leBytes 8 input.length := by
    rw [hstream, List.append_assoc]
    exact List.take_left' hA
  refine ⟨?_, hout, htake8, ?_, ?_, ?_, ?_⟩
  · rw [hout, carry_last_eq_sum stage input h]
  · have h2 : (256 : Nat) ^ 8 = 2 ^ 64 := by norm_num
    rw [htake8, leVal_leBytes, h2]
    exact Nat.mod_eq_of_lt h64
  · rw [hstream, List.append_assoc, List.drop_left' hA]
    exact List.take_left' hB
  · rw [hstream]
    refine List.drop_left' ?_
    rw [List.length_append, hA, hB]
  · rw [hstream, hout, List.length_append, List.length_append, hA, hB,
      payload_length stage input h]

theorem stream_layout_outsize_witness :
    (h_encode stageFail [7]).2 =
        8 + 2 * numChunks ([7] : List Nat).length +
          (sizeTable stageFail [7]).sum ∧
      leVal ((h_encode stageFail [7]).1.take 8) = ([7] : List Nat).length := by
  have hs := stream_layout_outsize stageFail [7] (by decide) (by decide)
  exact ⟨hs.1, hs.2.2.2.1⟩

theorem raw_chunk_bytes_from_input_witness :
    0 < numChunks ([4, 5, 6] : List Nat).length ∧
      ((payload stageFail [4, 5, 6]).drop (chunkOffs stageFail [4, 5, 6] 0)).take
          (storedSize stageFail [4, 5, 6] 0) =
        (([4, 5, 6] : List Nat).drop (0 * CS)).take
          (chunkOsize ([4, 5, 6] : List Nat).length 0) :=
  ⟨by decide,
    raw_chunk_bytes_from_input stageFail [4, 5, 6] 0 (by decide) (Or.inl rfl)⟩

section Decoder

/-- Modelled from the spec: the reciprocal decoder of section 4.5 (its
implementation is not part of this repository).  For each chunk in order
it computes `originalChunkSize = min(CS, originalSize − chunkID·CS)`,
reads `storedSize` bytes from the payload, copies them verbatim when
`storedSize == originalChunkSize` (raw chunk) and otherwise applies the
compression stage's inverse `inv` to recover `originalChunkSize` bytes;
an inverse failure is a fatal decode error (`none`). -/
def decodeChunks (inv : List Nat → Nat → Option (List Nat)) (origSize : Nat) :
    List Nat → List Nat → Nat → Option (List Nat)
  | [], _, _ => some []
  | s :: sizes, pay, chunkID =>
    match (if s = min CS (origSize - chunkID * CS) then some (pay.take s)
      else inv (pay.take s) (min CS (origSize - chunkID * CS))) with
    | none => none
    | some chunk =>
      match decodeChunks inv origSize sizes (pay.drop s) (chunkID + 1) with
      | none => none
      | some rest => some (chunk ++ rest)

/-- Modelled from the spec: reading the 16-bit size table entries of
section 6, in chunk order. -/
def parseSizes : Nat → List Nat → List Nat
  | 0, _ => []
  | n + 1, bytes => leVal (bytes.take 2) :: parseSizes n (bytes.drop 2)

/-- Modelled from the spec: the decoder entry point (section 4.5 and the
stream layout of section 6) — read `originalSize` from the first 8 bytes,
recompute `chunks = ceil(originalSize / CS)` from the shared compile-time
`CS`, read the size table, and decode the payload chunk by chunk. -/
def h_decode (inv : List Nat → Nat → Option (List Nat))
    (stream : List Nat) : Option (List Nat) :=
  let origSize := leVal (stream.take 8)
  let chunks := numChunks origSize
  decodeChunks inv origSize (parseSizes chunks (stream.drop 8))
    (stream.drop (8 + 2 * chunks)) 0

/-- An inverse that always fails; with a never-succeeding stage it
satisfies the inverse contract vacuously. -/
def invFail : List Nat → Nat → Option (List Nat) := fun _ _ => none

theorem parseSizes_flatten (sizes : List Nat) :
    ∀ rest : List Nat, (∀ s ∈ sizes, s < 65536) →
      parseSizes sizes.length ((sizes.map (leBytes 2)).flatten ++ rest) =
        sizes := by
  induction sizes with
  | nil => intro rest _; rfl
  | cons s sizes ih =>
    intro rest hbound
    rw [List.map_cons, List.flatten_cons, List.append_assoc,
      List.length_cons, parseSizes,
      List.take_left' (leBytes_length 2 s),
      List.drop_left' (leBytes_length 2 s),
      ih rest (fun t ht => hbound t (List.mem_cons_of_mem s ht)),
      leVal_leBytes]
    have hs : s < 256 ^ 2 := by
      have := hbound s (List.mem_cons_self s sizes)
      norm_num
      omega
    rw [Nat.mod_eq_of_lt hs]

theorem sizeTable_bound (stage : Stage) (input : List Nat) :
    ∀ s ∈ sizeTable stage input, s < 65536 := by
  intro s hs
  rw [sizeTable, List.mem_map] at hs
  obtain ⟨i, _, he⟩ := hs
  have h1 := storedSize_le_osize stage input i
  have h2 := chunkOsize_le_CS input.length i
  have h3 : CS < 65536 := by decide
  omega

theorem decodeChunks_encode (stage : Stage)
    (inv : List Nat → Nat → Option (List Nat)) (input : List Nat)
    (hinv : ∀ b c, stage b = some c → c.length < b.length →
      inv c b.length = some b) :
    ∀ j k, 0 < j → k + j = numChunks input.length →
      decodeChunks inv input.length
        ((List.range' k j).map (storedSize stage input))
        (((List.range' k j).map (storedChunk stage input)).flatten) k =
      some (input.drop (k * CS)) := by
  intro j
  induction j with
  | zero => intro k h0 _; exact absurd h0 (by omega)
  | succ j ih =>
    intro k h0 hkj
    have hk : k < numChunks input.length := by omega
    have hins : 0 < input.length := by
      rcases Nat.eq_zero_or_pos input.length with hz | hz
      · rw [hz] at hk
        have hz0 : numChunks 0 = 0 := by decide
        rw [hz0] at hk
        exact absurd hk (Nat.not_lt_zero k)
      · exact hz
    have hocs : min CS (input.length - k * CS) = chunkOsize input.length k := rfl
    have hraw := chunkRaw_length input k
    rw [List.range'_succ, List.map_cons, List.map_cons, List.flatten_cons,
      decodeChunks]
    have htake : ((storedChunk stage input k) ++
        (((List.range' (k + 1) j).map (storedChunk stage input)).flatten)).take
          (storedSize stage input k) = storedChunk stage input k :=
      List.take_left' rfl
    have hdrop : ((storedChunk stage input k) ++
        (((List.range' (k + 1) j).map (storedChunk stage input)).flatten)).drop
          (storedSize stage input k) =
        ((List.range' (k + 1) j).map (storedChunk stage input)).flatten :=
      List.drop_left' rfl
    -- the head chunk always decodes to the raw chunk bytes
    have hchunk : (if storedSize stage input k =
          min CS (input.length - k * CS) then
        some (((storedChunk stage input k) ++
          (((List.range' (k + 1) j).map (storedChunk stage input)).flatten)).take
            (storedSize stage input k))
      else inv (((storedChunk stage input k) ++
          (((List.range' (k + 1) j).map (storedChunk stage input)).flatten)).take
            (storedSize stage input k))
        (min CS (input.length - k * CS))) = some (chunkRaw input k) := by
      rw [htake, hocs]
      rcases hs : stage (chunkRaw input k) with _ | c
      · have he := storedChunk_eq_raw_of_fail stage input k hs
        have hsz : storedSize stage input k = chunkOsize input.length k := by
          rw [storedSize, he, hraw]
        rw [if_pos hsz, he]
      · rcases Nat.lt_or_ge c.length (chunkOsize input.length k) with hlt | hge
        · have he := storedChunk_eq_of_compressed stage input k c hs hlt
          have hsz : storedSize stage input k = c.length := by
            rw [storedSize, he]
          have hne : storedSize stage input k ≠ chunkOsize input.length k := by
            omega
          rw [if_neg hne, he, ← hraw]
          exact hinv (chunkRaw input k) c hs (by omega)
        · have he := storedChunk_eq_raw_of_not_smaller stage input k c hs hge
          have hsz : storedSize stage input k = chunkOsize input.length k := by
            rw [storedSize, he, hraw]
          rw [if_pos hsz, he]
    rw [hchunk, hdrop]
    rcases Nat.eq_zero_or_pos j with hj | hj
    · -- last chunk: its raw bytes are the whole remaining suffix
      subst hj
      simp only [List.range', List.map_nil, decodeChunks]
      have hlast : chunkOsize input.length k = input.length - k * CS := by
        have h1 : k = numChunks input.length - 1 := by omega
        have h2 := le_numChunks_mul input.length
        have h3 : numChunks input.length * CS =
            (numChunks input.length - 1) * CS + CS := by
          have := numChunks_pos input.length hins
          rw [← Nat.succ_mul]
          congr 1
          omega
        have h4 : k * CS = (numChunks input.length - 1) * CS := by rw [h1]
        unfold chunkOsize
        omega
      have hfull : chunkRaw input k = input.drop (k * CS) := by
        rw [chunkRaw]
        refine List.take_of_length_le ?_
        rw [List.length_drop, hlast]
      exact congrArg some (by rw [List.append_nil, hfull])
    · -- middle chunk: raw bytes are a full CS-sized slice
      have hfull : chunkOsize input.length k = CS := by
        have h1 : (k + 1) * CS ≤ (numChunks input.length - 1) * CS :=
          Nat.mul_le_mul_right CS (by omega)
        have h2 := pred_numChunks_mul_lt input.length hins
        have hsm : (k + 1) * CS = k * CS + CS := Nat.succ_mul k CS
        unfold chunkOsize
        omega
      rw [ih (k + 1) hj (by omega)]
      have hsplit : chunkRaw input k ++ input.drop ((k + 1) * CS) =
          input.drop (k * CS) := by
        rw [chunkRaw, hfull, Nat.succ_mul, ← List.drop_drop,
          List.take_append_drop]
      exact congrArg some hsplit

end Decoder

/-- C1: decoding the encoded stream reproduces the input exactly —
`decode(encode(I)) = I` — for every nonempty input whose size fits the
64-bit header, whenever the decoder's stage inverse `inv` inverts every
successful, strictly-shrinking stage result. -/
theorem round_trip (stage : Stage) (inv : List Nat → Nat → Option (List Nat))
    (input : List Nat) (hne : input ≠ []) (h64 : input.length < 2 ^ 64)
    (hinv : ∀ b c, stage b = some c → c.length < b.length →
      inv c b.length = some b) :
    h_decode inv (h_encode stage input).1 = some input := by
  have hins : 0 < input.length := List.length_pos.mpr hne
  have hA : (leBytes 8 input.length).length = 8 := leBytes_length 8 input.length
  have hB : (((sizeTable stage input).map (leBytes 2)).flatten).length =
      2 * numChunks input.length := by
    rw [tableBytes_length, sizeTable_length]
  have hstream : (h_encode stage input).1 =
      (leBytes 8 input.length ++
        ((sizeTable stage input).map (leBytes 2)).flatten) ++
        payload stage input := rfl
  have htake8 : (h_encode stage input).1.take 8 = leBytes 8 input.length := by
    rw [hstream, List.append_assoc]
    exact List.take_left' hA
  have horig : leVal ((h_encode stage input).1.take 8) = input.length := by
    have h2 : (256 : Nat) ^ 8 = 2 ^ 64 := by norm_num
    rw [htake8, leVal_leBytes, h2]
    exact Nat.mod_eq_of_lt h64
  have hdrop8 : (h_encode stage input).1.drop 8 =
      ((sizeTable stage input).map (leBytes 2)).flatten ++
        payload stage input := by
    rw [hstream, List.append_assoc]
    exact List.drop_left' hA
  have hsizes : parseSizes (numChunks input.length)
      ((h_encode stage input).1.drop 8) = sizeTable stage input := by
    rw [hdrop8, ← sizeTable_length stage input]
    exact parseSizes_flatten (sizeTable stage input) (payload stage input)
      (sizeTable_bound stage input)
  have hpay : (h_encode stage input).1.drop (8 + 2 * numChunks input.length) =
      payload stage input := by
    rw [hstream]
    refine List.drop_left' ?_
    rw [List.length_append, hA, hB]
  rw [h_decode, horig, hsizes, hpay]
  have hrange : List.range (numChunks input.length) =
      List.range' 0 (numChunks input.length) :=
    List.range_eq_range' (numChunks input.length)
  rw [sizeTable, payload, hrange]
  have hrt := decodeChunks_encode stage inv input hinv
    (numChunks input.length) 0 (numChunks_pos input.length hins) (by omega)
  rw [hrt]
  simp

theorem round_trip_witness :
    ([1, 2, 3] : List Nat) ≠ [] ∧
      ([1, 2, 3] : List Nat).length < 2 ^ 64 ∧
      h_decode invFail (h_encode stageFail [1, 2, 3]).1 = some [1, 2, 3] :=
  ⟨by decide, by decide,
    round_trip stageFail invFail [1, 2, 3] (by decide) (by decide)
      (fun b c hbc => by cases hbc)⟩

section MainDriver

/-- The terminal outcomes of `main`'s input handling: `usage` prints the
usage line and returns `-1`; `nullFile` is the unchecked `fopen` failure
(the NULL stream is passed straight to `fseek`); `emptyInput` is the
`fsize <= 0` fatal error; `badFlag` is the third-argument check failing.
None of these produce any output file content. -/
inductive MainErr where
  | usage
  | nullFile
  | emptyInput
  | badFlag
deriving DecidableEq

/-- `return -1` after printing the usage message. -/
def usageExitCode : Int := -1

/-- `long long dataset_size = 2207`. -/
def dataset_size : Nat := 2207

/-- `long long num_datasets = insize / 4 / dataset_size`. -/
def mainNumDatasets (insize : Nat) : Nat := insize / 4 / dataset_size

/-- `fwrite(out_data, 1, insize * 2, fout)` — the byte count handed to
`fwrite`. -/
def mainWrittenBytes (insize : Nat) : Nat := insize * 2

/-- The control path of `main` up to the output step: `argc < 3` is the
usage error; an unopenable input file means the NULL `FILE*` reaches
`fseek` (modelled as the fatal `nullFile` outcome); `fsize <= 0` is the
fatal empty-input error; a present third argument other than `"y"` is the
fatal flag error; otherwise the run reaches the output step and writes
`insize * 2` bytes. -/
def mainRun (args : List String) (file : Option (List Nat)) :
    Except MainErr Nat :=
  if args.length < 3 then .error .usage
  else
    match file with
    | none => .error .nullFile
    | some input =>
      if input.length = 0 then .error .emptyInput
      else
        match args[3]? with
        | some p => if p = "y" then .ok (mainWrittenBytes input.length)
            else .error .badFlag
        | none => .ok (mainWrittenBytes input.length)

/-- Bit pattern of the `double` value `1.0`
(`double ref = 1.0f; *reinterpret_cast<unsigned long long*>(&ref)`). -/
def refDoubleBits : Nat := 0x3FF0000000000000

/-- One output word:
`ref_double | ((unsigned long long) curr_word << 20)` for a 32-bit
`curr_word`. -/
def lcOutWord (w : Nat) : Nat :=
  Nat.lor refDoubleBits ((w % 2 ^ 32) * 2 ^ 20)

/-- Reinterpreting a little-endian byte buffer as 32-bit words
(`unsigned int* lc_data_4 = (unsigned int*) lc_data`), one word per four
bytes. -/
def bytesToWords : List Nat → List Nat
  | b0 :: b1 :: b2 :: b3 :: rest => leVal [b0, b1, b2, b3] :: bytesToWords rest
  | _ => []

/-- The 64-bit words `main` assembles into `out_data`: for each dataset
`ds`, copy bytes `[ds*8828, (ds+1)*8828)`, apply the quantizer stage
(`h_QUANT_IABS_0_f32`, modelled from the spec as an abstract
size-preserving preprocessing stage since its header is not part of this
repository), reinterpret as 32-bit words and expand each to a 64-bit
word; dataset `ds` writes words `[ds*2207, (ds+1)*2207)`, so the result
is the concatenation in dataset order. -/
def mainOutWords (quant : List Nat → List Nat) (input : List Nat) :
    List Nat :=
  ((List.range (mainNumDatasets input.length)).map (fun ds =>
    (bytesToWords (quant ((input.drop (ds * (dataset_size * 4))).take
      (dataset_size * 4)))).map lcOutWord)).flatten

theorem bytesToWords_length : ∀ l : List Nat,
    (bytesToWords l).length = l.length / 4
  | [] => by simp [bytesToWords]
  | [_] => by simp [bytesToWords]
  | [_, _] => by simp [bytesToWords]
  | [_, _, _] => by simp [bytesToWords]
  | b0 :: b1 :: b2 :: b3 :: rest => by
    have ih := bytesToWords_length rest
    simp only [bytesToWords, List.length_cons, ih]
    omega

end MainDriver

/-- C8: `main` reports the usage error (and returns the nonzero status
`-1`) when fewer than two file arguments are given; a present third
argument must be the literal `"y"` or the run fails; an empty input file
and an unreadable input file each end the run with a fatal outcome before
any output is produced. -/
theorem main_error_handling :
    (∀ args file, args.length < 3 →
      mainRun args file = .error .usage) ∧
    usageExitCode ≠ 0 ∧
    (∀ args input p, ¬args.length < 3 → args[3]? = some p → p ≠ "y" →
      0 < input.length → mainRun args (some input) = .error .badFlag) ∧
    (∀ args input p, ¬args.length < 3 → args[3]? = some p → p = "y" →
      0 < input.length →
      mainRun args (some input) = .ok (mainWrittenBytes input.length)) ∧
    (∀ args, ¬args.length < 3 → mainRun args (some []) = .error .emptyInput) ∧
    (∀ args, ¬args.length < 3 → mainRun args none = .error .nullFile) := by
  refine ⟨fun args file h3 => ?_, by decide,
    fun args input p h3 hp hpy hin => ?_,
    fun args input p h3 hp hpy hin => ?_,
    fun args h3 => ?_, fun args h3 => ?_⟩
  · simp [mainRun, h3]
  · simp [mainRun, h3, hp, hpy, Nat.pos_iff_ne_zero.mp hin]
  · simp [mainRun, h3, hp, hpy, Nat.pos_iff_ne_zero.mp hin]
  · simp [mainRun, h3]
  · simp [mainRun, h3]

theorem main_error_handling_witness :
    mainRun ["lc"] none = .error .usage ∧
      mainRun ["lc", "in.bin", "out.bin", "x"] (some [1]) = .error .badFlag ∧
      mainRun ["lc", "in.bin", "out.bin", "y"] (some [1]) =
        .ok (mainWrittenBytes 1) ∧
      mainRun ["lc", "in.bin", "out.bin"] (some []) = .error .emptyInput ∧
      mainRun ["lc", "in.bin", "out.bin"] none = .error .nullFile := by
  have hm := main_error_handling
  exact ⟨hm.1 ["lc"] none (by decide),
    hm.2.2.1 ["lc", "in.bin", "out.bin", "x"] [1] "x" (by decide) rfl
      (by decide) (by decide),
    hm.2.2.2.1 ["lc", "in.bin", "out.bin", "y"] [1] "y" (by decide) rfl rfl
      (by decide),
    hm.2.2.2.2.1 ["lc", "in.bin", "out.bin"] (by decide),
    hm.2.2.2.2.2 ["lc", "in.bin", "out.bin"] (by decide)⟩

/-- C10: a run of `main` that reaches the output step hands `fwrite`
exactly `2 * insize` bytes, whatever the input content and the quantizer
do; the output words are derived from the quantizer stage over
`floor(insize / 8828)` datasets of 2207 words each; `h_encode` and its
stream are nowhere involved (`mainRun` is defined without reference to
`h_encode`). -/
theorem main_output_size (quant : List Nat → List Nat) (args : List String)
    (input : List Nat) (h3 : ¬args.length < 3) (hin : 0 < input.length)
    (hflag : args[3]? = none ∨ args[3]? = some "y")
    (hq : ∀ b, (quant b).length = b.length) :
    mainRun args (some input) = .ok (mainWrittenBytes input.length) ∧
    mainWrittenBytes input.length = 2 * input.length ∧
    mainNumDatasets input.length = input.length / 8828 ∧
    (mainOutWords quant input).length =
      mainNumDatasets input.length * dataset_size := by
  refine ⟨?_, by rw [mainWrittenBytes, Nat.mul_comm], ?_, ?_⟩
  · rcases hflag with hf | hf
    · simp [mainRun, h3, hf, Nat.pos_iff_ne_zero.mp hin]
    · simp [mainRun, h3, hf, Nat.pos_iff_ne_zero.mp hin]
  · rw [mainNumDatasets, Nat.div_div_eq_div_mul, dataset_size]
  · rw [mainOutWords, List.length_flatten, List.map_map]
    have hone : ∀ ds ∈ List.range (mainNumDatasets input.length),
        (List.length ∘ fun ds =>
          (bytesToWords (quant ((input.drop (ds * (dataset_size * 4))).take
            (dataset_size * 4)))).map lcOutWord) ds = dataset_size := by
      intro ds hds
      rw [List.mem_range] at hds
      have hslice : ((input.drop (ds * (dataset_size * 4))).take
          (dataset_size * 4)).length = dataset_size * 4 := by
        rw [List.length_take, List.length_drop]
        have hle : (ds + 1) * (dataset_size * 4) ≤ input.length := by
          have h1 : ds + 1 ≤ mainNumDatasets input.length := hds
          have h2 : mainNumDatasets input.length = input.length / 8828 := by
            rw [mainNumDatasets, Nat.div_div_eq_div_mul, dataset_size]
          have h3 : (ds + 1) * 8828 ≤ input.length := by
            rw [h2] at h1
            calc (ds + 1) * 8828
                ≤ input.length / 8828 * 8828 := Nat.mul_le_mul_right 8828 h1
              _ ≤ input.length := Nat.div_mul_le_self input.length 8828
          simpa [dataset_size] using h3
        have hsm : (ds + 1) * (dataset_size * 4) =
            ds * (dataset_size * 4) + dataset_size * 4 := Nat.succ_mul _ _
        omega
      simp only [Function.comp_apply, List.length_map, bytesToWords_length,
        hq, hslice]
      rw [dataset_size]
    rw [List.map_congr_left hone]
    simp [List.map_const', List.sum_replicate, smul_eq_mul, Nat.mul_comm]

theorem main_output_size_witness :
    mainRun ["lc", "in.bin", "out.bin"] (some [1, 2]) =
        .ok (mainWrittenBytes 2) ∧
      mainWrittenBytes ([1, 2] : List Nat).length = 2 * 2 ∧
      mainNumDatasets ([1, 2] : List Nat).length = 2 / 8828 ∧
      (mainOutWords id [1, 2]).length =
        mainNumDatasets ([1, 2] : List Nat).length * dataset_size :=
  main_output_size id ["lc", "in.bin", "out.bin"] [1, 2] (by decide)
    (by decide) (Or.inl rfl) (fun b => rfl)

end IABS
